import Mathlib

/-!
Shallow embedding of the btc-mining-forecast pipeline (`src/main.py`).

Dates are modelled as day numbers (days since 1970-01-01, so day 0 is a
Thursday); price timestamps are epoch milliseconds, both as `ℤ`.  Numeric
values are `ℚ`.  A pandas `NaN` cell is modelled as `none : Option ℚ`.
The opaque XGBoost regressor is modelled as an abstract prediction
function (`Model`): no claim depends on the numeric value a fitted
booster returns, only on how the pipeline feeds and uses it.
-/

namespace BTCForecast

/-! ### Calendar: `Timestamp.month`, `.dayofyear`, `.dayofweek`
Gregorian decomposition of a day number (Hinnant's civil-from-days). -/

def isLeap (y : ℤ) : Bool :=
  (y % 4 == 0 && y % 100 != 0) || y % 400 == 0

/-- Gregorian (year, month, day) of a day number (day 0 = 1970-01-01). -/
def civilFromDays (z0 : ℤ) : ℤ × ℤ × ℤ :=
  let z := z0 + 719468
  let era := (if 0 ≤ z then z else z - 146096) / 146097
  let doe := z - era * 146097
  let yoe := (doe - doe / 1460 + doe / 36524 - doe / 146096) / 365
  let y := yoe + era * 400
  let doy := doe - (365 * yoe + yoe / 4 - yoe / 100)
  let mp := (5 * doy + 2) / 153
  let d := doy - (153 * mp + 2) / 5 + 1
  let m := if mp < 10 then mp + 3 else mp - 9
  (if m ≤ 2 then y + 1 else y, m, d)

/-- pandas `.month` (1..12). -/
def monthOf (z : ℤ) : ℤ := (civilFromDays z).2.1

/-- Cumulative days before month `m` (1..12) in year `y`. -/
def daysBeforeMonth (y m : ℤ) : ℤ :=
  ([0, 31, 59, 90, 120, 151, 181, 212, 243, 273, 304, 334].getD (m - 1).toNat 0)
    + (if 2 < m ∧ isLeap y then 1 else 0)

/-- pandas `.dayofyear` (1..366). -/
def dayOfYearOf (z : ℤ) : ℤ :=
  let c := civilFromDays z
  daysBeforeMonth c.1 c.2.1 + c.2.2

/-- pandas `.dayofweek` (Monday = 0; 1970-01-01 was a Thursday = 3). -/
def dayOfWeekOf (z : ℤ) : ℤ := (z + 3) % 7

/-! ### Model: the opaque fitted XGBoost booster

`predict lag1 lag7 lag30 month dayofyear dayofweek` is the single-row
`model.predict` call of the source; its numeric behaviour is opaque. -/

structure Model where
  predict : ℚ → ℚ → ℚ → ℤ → ℤ → ℤ → ℚ

/-! ### Aggregator: pool share table and HHI

`records` / `pools_df` / `pivot` / `distribution_df` / `shares` /
`hhi_series` of the source.  Block counts are integers (`ℕ`) as delivered
by the JSON source; shares are rationals. -/

structure DailyPoolRecord where
  date : ℤ
  pool : String
  blocks : ℕ
deriving DecidableEq, Repr

/-- `start_date = pd.to_datetime("2023-01-01")`: day number of 2023-01-01. -/
def start_date : ℤ := 19358

def major_pools : List String :=
  ["Unknown", "AntPool", "ViaBTC", "F2Pool", "Mara Pool", "SBI Crypto"]

/-- `pools_df = pools_df[pools_df["date"] >= start_date]`. -/
def pools_df (recs : List DailyPoolRecord) : List DailyPoolRecord :=
  recs.filter (fun r => start_date ≤ r.date)

/-- The `pivot` index: the distinct dates of the filtered records (pandas
sorts the index; no theorem below depends on the order, so the
deduplicated order is kept). -/
def pivotDates (recs : List DailyPoolRecord) : List ℤ :=
  ((pools_df recs).map (fun r => r.date)).dedup

/-- The `pivot` columns: the distinct pool labels of the filtered records. -/
def pivotPools (recs : List DailyPoolRecord) : List String :=
  ((pools_df recs).map (fun r => r.pool)).dedup

/-- `pivot.loc[d, p]`: `pivot_table(values="blocks", fill_value=0)` with the
default `aggfunc="mean"`; absent (date, pool) combinations are 0.  (The
records come from a JSON dict of dicts, so each (date, pool) pair occurs at
most once and the mean reduces to the single reported count.) -/
def blocksAt (df : List DailyPoolRecord) (d : ℤ) (p : String) : ℚ :=
  let xs := (df.filter (fun r => r.date == d && r.pool == p)).map (fun r => (r.blocks : ℚ))
  if xs = [] then 0 else xs.sum / xs.length

/-- `pivot["Others"]`: sum of the non-major columns on date `d`. -/
def othersSum (recs : List DailyPoolRecord) (d : ℤ) : ℚ :=
  (((pivotPools recs).filter (fun p => ¬ p ∈ major_pools)).map
    (blocksAt (pools_df recs) d)).sum

/-- The `distribution_df` row for date `d`: the six major-pool columns in
order, then "Others". -/
def bucketCounts (recs : List DailyPoolRecord) (d : ℤ) : List ℚ :=
  major_pools.map (blocksAt (pools_df recs) d) ++ [othersSum recs d]

/-- `distribution_df.sum(axis=1)` for date `d`. -/
def totalBlocks (recs : List DailyPoolRecord) (d : ℤ) : ℚ :=
  (bucketCounts recs d).sum

/-- `shares = distribution_df.div(distribution_df.sum(axis=1), axis=0)` on
date `d`.  A zero row total makes every cell of the row `0/0 = NaN` in
pandas, modelled as `none`. -/
def shares (recs : List DailyPoolRecord) (d : ℤ) : Option (List ℚ) :=
  if totalBlocks recs d = 0 then none
  else some ((bucketCounts recs d).map (fun b => b / totalBlocks recs d))

/-- `hhi_series = (shares**2).sum(axis=1)` on date `d`.  Pandas `sum` skips
NaN cells, so an all-NaN row (zero total blocks) sums to `0`. -/
def hhiAt (recs : List DailyPoolRecord) (d : ℤ) : ℚ :=
  match shares recs d with
  | none => 0
  | some s => (s.map (fun x => x ^ 2)).sum

/-- `hhi_series` as a date-indexed series over the pivot index. -/
def hhi_series (recs : List DailyPoolRecord) : List (ℤ × ℚ) :=
  (pivotDates recs).map (fun d => (d, hhiAt recs d))

/-! ### Resampler -/

/-- The entry with the greatest key `≤ d` (the value forward-fill and the
interpolation "previous valid point" both need it). -/
def bestLe (l : List (ℤ × ℚ)) (d : ℤ) : Option (ℤ × ℚ) :=
  l.foldl (fun acc e =>
    if e.1 ≤ d then
      match acc with
      | none => some e
      | some a => if a.1 < e.1 then some e else acc
    else acc) none

/-- The entry with the greatest key `< d`. -/
def bestLt (l : List (ℤ × ℚ)) (d : ℤ) : Option (ℤ × ℚ) :=
  l.foldl (fun acc e =>
    if e.1 < d then
      match acc with
      | none => some e
      | some a => if a.1 < e.1 then some e else acc
    else acc) none

/-- The entry with the least key `> d`. -/
def bestGt (l : List (ℤ × ℚ)) (d : ℤ) : Option (ℤ × ℚ) :=
  l.foldl (fun acc e =>
    if d < e.1 then
      match acc with
      | none => some e
      | some a => if e.1 < a.1 then some e else acc
    else acc) none

def loKey (l : List (ℤ × ℚ)) : Option ℤ :=
  l.foldl (fun acc e => some (match acc with | none => e.1 | some a => min a e.1)) none

def hiKey (l : List (ℤ × ℚ)) : Option ℤ :=
  l.foldl (fun acc e => some (match acc with | none => e.1 | some a => max a e.1)) none

/-- `series.resample("D").mean().ffill()`: one slot per calendar day from
the least to the greatest key; the value of day `d` is the value at the
greatest key `≤ d` (the day's own value when present — the index is
unique, so the bin mean is the single value — else carried forward),
`none` only if no key is `≤ d`. -/
def resample_ffill (entries : List (ℤ × ℚ)) : List (ℤ × Option ℚ) :=
  match loKey entries, hiKey entries with
  | some lo, some hi =>
    (List.range ((hi - lo).toNat + 1)).map
      (fun (k : ℕ) => (lo + (k : ℤ), (bestLe entries (lo + (k : ℤ))).map Prod.snd))
  | _, _ => []

/-- `hhi_daily = hhi_series.resample("D").mean().ffill()`. -/
def hhi_daily (recs : List DailyPoolRecord) : List (ℤ × Option ℚ) :=
  resample_ffill (hhi_series recs)

def dayMs : ℤ := 86400000

/-- `l.find?` by key: the value stored at key `t`, if any. -/
def lookupKey {α : Type} (pts : List (ℤ × α)) (t : ℤ) : Option α :=
  (pts.find? (fun p => p.1 == t)).map Prod.snd

/-- `price_df["y"].asfreq("D")`: reindex onto the daily grid anchored at the
first timestamp and ending at or before the last; grid slots whose exact
timestamp is absent from the input become `NaN` (`none`). -/
def asfreqD (pts : List (ℤ × ℚ)) : List (ℤ × Option ℚ) :=
  match pts.head?, pts.getLast? with
  | some f, some l =>
    (List.range (((l.1 - f.1) / dayMs).toNat + 1)).map
      (fun (k : ℕ) => (f.1 + (k : ℤ) * dayMs, lookupKey pts (f.1 + (k : ℤ) * dayMs)))
  | _, _ => []

/-- The valid (non-NaN) points of a reindexed series. -/
def valids (g : List (ℤ × Option ℚ)) : List (ℤ × ℚ) :=
  g.filterMap (fun p => p.2.map (fun v => (p.1, v)))

/-- `.interpolate("time")` (default `limit_direction="forward"`): a NaN slot
strictly between two valid slots gets the time-weighted linear
interpolation of the nearest valid slots on either side; a NaN slot after
the last valid slot is filled with the last valid value; a NaN slot before
the first valid slot stays NaN. -/
def interpTime (g : List (ℤ × Option ℚ)) : List (ℤ × Option ℚ) :=
  let vs := valids g
  g.map (fun p =>
    match p.2 with
    | some v => (p.1, some v)
    | none =>
      match bestLe vs p.1, bestGt vs p.1 with
      | none, _ => (p.1, none)
      | some a, none => (p.1, some a.2)
      | some a, some b =>
        (p.1, some (a.2 + (b.2 - a.2) * (p.1 - a.1) / (b.1 - a.1))))

/-- `price_daily = price_df["y"].asfreq("D").interpolate("time")`, taking
the already start-filtered `(timestamp_ms, value)` series. -/
def price_daily (pts : List (ℤ × ℚ)) : List (ℤ × Option ℚ) :=
  interpTime (asfreqD pts)

/-- The spec's description of the price fill: time-weighted linear
interpolation between the nearest known input values strictly on either
side of day `d`; undefined when a side is missing. -/
def specInterp (pts : List (ℤ × ℚ)) (d : ℤ) : Option ℚ :=
  match bestLt pts d, bestGt pts d with
  | some a, some b => some (a.2 + (b.2 - a.2) * (d - a.1) / (b.1 - a.1))
  | _, _ => none

/-! ### FeatureConstructor: `create_features` -/

/-- One pre-`dropna` row of the feature DataFrame; a lag cell is `none`
where `series.shift(k)` produced NaN. -/
structure RawRow where
  target : ℚ
  lag1 : Option ℚ
  lag7 : Option ℚ
  lag30 : Option ℚ
  month : ℤ
  dayofyear : ℤ
  dayofweek : ℤ
deriving DecidableEq, Repr

/-- `series.shift(k)` at position `i`: the value `k` positions earlier,
NaN for the first `k` positions. -/
def shiftAt (s : List (ℤ × ℚ)) (k i : ℕ) : Option ℚ :=
  if k ≤ i then (s.get? (i - k)).map Prod.snd else none

/-- `create_features(series)`: target plus lag1/lag7/lag30 (positional
shifts) plus month/dayofyear/dayofweek of the row's date. -/
def create_features (s : List (ℤ × ℚ)) : List (ℤ × RawRow) :=
  s.mapIdx (fun i p =>
    (p.1,
      { target := p.2
        lag1 := shiftAt s 1 i
        lag7 := shiftAt s 7 i
        lag30 := shiftAt s 30 i
        month := monthOf p.1
        dayofyear := dayOfYearOf p.1
        dayofweek := dayOfWeekOf p.1 }))

/-- `.dropna()`: keep only rows with every cell defined (target and the
calendar columns are always defined, so only the lag columns filter). -/
def dropna (rows : List (ℤ × RawRow)) : List (ℤ × RawRow) :=
  rows.filter (fun r => r.2.lag1.isSome && r.2.lag7.isSome && r.2.lag30.isSome)

/-! ### ModelTrainer: `train_xgb_model` -/

/-- `train_xgb_model(series)`.  The `xgb.train(params, dtrain, 300)` call is
an opaque external fit, abstracted as `fit` from the (features, label)
rows to a model.  The source has no emptiness check: whatever `fit`
returns on the (possibly empty) design matrix is returned as the model. -/
def train_xgb_model (fit : List ((ℚ × ℚ × ℚ × ℤ × ℤ × ℤ) × ℚ) → Model)
    (s : List (ℤ × ℚ)) : Model :=
  let feat_df := dropna (create_features s)
  let rows := feat_df.map (fun r =>
    ((r.2.lag1.getD 0, r.2.lag7.getD 0, r.2.lag30.getD 0,
      r.2.month, r.2.dayofyear, r.2.dayofweek), r.2.target))
  fit rows

/-! ### RecursiveForecaster: `forecast_with_xgb` -/

/-- Python `forecast_series.iloc[-k]` (positional from the end); the source
only evaluates it under a length guard, so the out-of-range default 0 is
unreachable there (Python would raise `IndexError`). -/
def ilocNeg (fs : List (ℤ × ℚ)) (k : ℕ) : ℚ :=
  ((fs.get? (fs.length - k)).map Prod.snd).getD 0

/-- One iteration of the `for i in range(forecast_days)` loop body:
compute lags (with the `len >= 7` / `len >= 30` fallbacks to `lag1`),
calendar features of `next_date`, predict, and append. -/
def stepOnce (m : Model) (fs : List (ℤ × ℚ)) (next_date : ℤ) : List (ℤ × ℚ) :=
  let lag1 := ilocNeg fs 1
  let lag7 := if 7 ≤ fs.length then ilocNeg fs 7 else lag1
  let lag30 := if 30 ≤ fs.length then ilocNeg fs 30 else lag1
  let pred := m.predict lag1 lag7 lag30 (monthOf next_date) (dayOfYearOf next_date)
      (dayOfWeekOf next_date)
  fs ++ [(next_date, pred)]

/-- The forecasting loop: step `i` appends day `last_date + i + 1`
(`forecast_series.loc[next_date] = pred` appends, since `next_date` is
strictly beyond every existing index entry). -/
def forecastLoop (m : Model) (last_date : ℤ) : List (ℤ × ℚ) → ℕ → ℕ → List (ℤ × ℚ)
  | fs, _, 0 => fs
  | fs, i, n + 1 => forecastLoop m last_date (stepOnce m fs (last_date + i + 1)) (i + 1) n

/-- `forecast_with_xgb(series, model, end_date)`.  On an empty series the
Python code raises `IndexError` at `series.index[-1]`; that failure is
`none`.  `forecast_days = (end_date - last_date).days`; when it is ≤ 0 the
copied input series is returned unchanged. -/
def forecast_with_xgb (s : List (ℤ × ℚ)) (m : Model) (end_date : ℤ) :
    Option (List (ℤ × ℚ)) :=
  match s.getLast? with
  | none => none
  | some lastPt =>
    let last_date := lastPt.1
    let forecast_days := end_date - last_date
    if forecast_days ≤ 0 then some s
    else some (forecastLoop m last_date s 0 forecast_days.toNat)

/-- Fallback-free variant of the loop body: `lag7` and `lag30` always read
positions 7 and 30 back, with no `len`-guard.  Used to state that the
fallback branches are dead when the history starts with ≥ 30 points. -/
def stepOnceNF (m : Model) (fs : List (ℤ × ℚ)) (next_date : ℤ) : List (ℤ × ℚ) :=
  let lag1 := ilocNeg fs 1
  let lag7 := ilocNeg fs 7
  let lag30 := ilocNeg fs 30
  let pred := m.predict lag1 lag7 lag30 (monthOf next_date) (dayOfYearOf next_date)
      (dayOfWeekOf next_date)
  fs ++ [(next_date, pred)]

def forecastLoopNF (m : Model) (last_date : ℤ) : List (ℤ × ℚ) → ℕ → ℕ → List (ℤ × ℚ)
  | fs, _, 0 => fs
  | fs, i, n + 1 => forecastLoopNF m last_date (stepOnceNF m fs (last_date + i + 1)) (i + 1) n

def forecast_with_xgbNF (s : List (ℤ × ℚ)) (m : Model) (end_date : ℤ) :
    Option (List (ℤ × ℚ)) :=
  match s.getLast? with
  | none => none
  | some lastPt =>
    let last_date := lastPt.1
    let forecast_days := end_date - last_date
    if forecast_days ≤ 0 then some s
    else some (forecastLoopNF m last_date s 0 forecast_days.toNat)

/-! ## Helper lemmas -/

lemma sum_map_div (l : List ℚ) (T : ℚ) : (l.map (fun b => b / T)).sum = l.sum / T := by
  induction l with
  | nil => simp
  | cons a t ih => simp [ih, add_div]

/-! ## Concrete inputs used by witnesses and counterexamples -/

/-- A constant predictor standing in for a concrete fitted booster. -/
def constModel (c : ℚ) : Model := ⟨fun _ _ _ _ _ _ => c⟩

/-- Two pools on 2023-01-01 (day 19358) with 3 and 1 blocks. -/
def recsW : List DailyPoolRecord := [⟨19358, "AntPool", 3⟩, ⟨19358, "Foo", 1⟩]

/-- A single date whose only record reports 0 blocks. -/
def recsZ : List DailyPoolRecord := [⟨19358, "X", 0⟩]

/-- One block for each of the six major pools and one for a seventh pool:
all seven buckets get share 1/7. -/
def recsEq : List DailyPoolRecord :=
  [⟨19358, "Unknown", 1⟩, ⟨19358, "AntPool", 1⟩, ⟨19358, "ViaBTC", 1⟩,
   ⟨19358, "F2Pool", 1⟩, ⟨19358, "Mara Pool", 1⟩, ⟨19358, "SBI Crypto", 1⟩,
   ⟨19358, "X", 1⟩]

/-- A ten-day series: far too short for the 30-day lag filter. -/
def sTen : List (ℤ × ℚ) := (List.range 10).map (fun k => ((k : ℤ), (k : ℚ)))

/-- A one-point series. -/
def sW : List (ℤ × ℚ) := [((0 : ℤ), (5 : ℚ))]

/-- A thirty-day series. -/
def s30 : List (ℤ × ℚ) := (List.range 30).map (fun k => ((k : ℤ), (k : ℚ)))

/-! ## C3: per-date shares sum to 1 when the total is nonzero -/

/-- C3: for every date whose total block count is nonzero, the share row
over the seven buckets (six major pools + "Others") is defined and sums to
exactly 1, hence to 1 within the 1e-9 tolerance. -/
theorem shares_sum_to_one (recs : List DailyPoolRecord) (d : ℤ)
    (h : totalBlocks recs d ≠ 0) :
    ∃ s, shares recs d = some s ∧ s.sum = 1 ∧ |s.sum - 1| ≤ 1 / 1000000000 := by
  have hsum : ((bucketCounts recs d).map (fun b => b / totalBlocks recs d)).sum = 1 := by
    rw [sum_map_div]
    exact div_self h
  exact ⟨_, by simp [shares, h], hsum, by rw [hsum]; norm_num⟩

theorem shares_sum_to_one_witness :
    ∃ s, shares recsW 19358 = some s ∧ s.sum = 1 ∧ |s.sum - 1| ≤ 1 / 1000000000 :=
  shares_sum_to_one recsW 19358 (by
    have h4 : totalBlocks recsW 19358 = 4 := by
      simp [totalBlocks, bucketCounts, blocksAt, othersSum, pools_df, pivotPools,
        major_pools, recsW, start_date]
      norm_num
    rw [h4]
    norm_num)

/-! ## C5: a zero-total date is not excluded (corrected) -/

/-- C5 counterexample: the date 19358 has total block count 0, yet it is
present in the derived HHI series (with the defaulted value 0), contrary
to the claim that such dates are absent. -/
theorem zero_total_date_present :
    totalBlocks recsZ 19358 = 0 ∧ ((19358 : ℤ), (0 : ℚ)) ∈ hhi_series recsZ := by
  constructor
  · simp [totalBlocks, bucketCounts, blocksAt, othersSum, pools_df, pivotPools,
      major_pools, recsZ, start_date]
  · simp [hhi_series, pivotDates, pools_df, recsZ, start_date, hhiAt, shares,
      totalBlocks, bucketCounts, blocksAt, othersSum, pivotPools, major_pools]

/-- C5 amended: a date with zero total blocks stays in the pivot index; its
share row is undefined (all-NaN, `none`) and its HHI value is the
NaN-skipping row sum 0, so the date appears in the HHI series carrying the
defaulted value 0 (not NaN or ∞). -/
theorem zero_total_defaults (recs : List DailyPoolRecord) (d : ℤ)
    (hd : d ∈ pivotDates recs) (h : totalBlocks recs d = 0) :
    shares recs d = none ∧ hhiAt recs d = 0 ∧ (d, (0 : ℚ)) ∈ hhi_series recs := by
  have h1 : shares recs d = none := by simp [shares, h]
  have h2 : hhiAt recs d = 0 := by simp [hhiAt, h1]
  refine ⟨h1, h2, ?_⟩
  exact List.mem_map.mpr ⟨d, hd, by rw [h2]⟩

theorem zero_total_defaults_witness :
    shares recsZ 19358 = none ∧ hhiAt recsZ 19358 = 0 ∧
      ((19358 : ℤ), (0 : ℚ)) ∈ hhi_series recsZ :=
  zero_total_defaults recsZ 19358 (by decide)
    (by simp [totalBlocks, bucketCounts, blocksAt, othersSum, pools_df, pivotPools,
      major_pools, recsZ, start_date])

/-! ## C2: horizon at or before the last date is a no-op -/

/-- C2: when the horizon end date is at or before the last historical date,
`forecast_with_xgb` returns the input series unchanged (a defined no-op,
not an error). -/
theorem forecast_noop_at_or_before_last (s : List (ℤ × ℚ)) (m : Model) (e : ℤ)
    (p : ℤ × ℚ) (hp : s.getLast? = some p) (h : e ≤ p.1) :
    forecast_with_xgb s m e = some s := by
  have hc : e - p.1 ≤ 0 := by omega
  simp [forecast_with_xgb, hp, hc]

theorem forecast_noop_witness : forecast_with_xgb sW (constModel 1) 0 = some sW :=
  forecast_noop_at_or_before_last sW (constModel 1) 0 ((0 : ℤ), (5 : ℚ))
    (by decide) (by decide)

/-! ## C7: the trainer has no "insufficient history" check (code bug) -/

/-- C7: on a 10-day series every feature row is dropped by the 30-day lag
filter, yet `train_xgb_model` raises no "insufficient history" condition:
it hands the empty design matrix to the opaque `xgb.train` call and
returns whatever model that call produces, as a usable model. -/
theorem trainer_trains_on_empty :
    dropna (create_features sTen) = [] ∧
    train_xgb_model (fun _ => constModel 0) sTen = constModel 0 := by
  constructor
  · decide
  · rfl

/-! ## C6: the 30-day lag filter keeps exactly the rows with full history -/

/-- A filter whose predicate holds exactly from position `k` on is a `drop k`. -/
lemma filter_eq_drop {α : Type} (p : α → Bool) :
    ∀ (l : List α) (k : ℕ),
      (∀ i (h : i < l.length), (p (l.get ⟨i, h⟩) = true ↔ k ≤ i)) →
      l.filter p = l.drop k := by
  intro l
  induction l with
  | nil => intro k _; simp
  | cons a t ih =>
    intro k hk
    cases k with
    | zero =>
      rw [List.drop_zero, List.filter_eq_self]
      intro x hx
      obtain ⟨⟨i, h⟩, rfl⟩ := List.mem_iff_get.mp hx
      exact (hk i h).mpr (Nat.zero_le i)
    | succ k' =>
      have ha : ¬ p a = true := by
        intro hpa
        exact absurd ((hk 0 (Nat.succ_pos _)).mp hpa) (by omega)
      rw [List.filter_cons_of_neg ha, List.drop_succ_cons]
      apply ih k'
      intro i h
      have := hk (i + 1) (Nat.succ_lt_succ h)
      simpa [Nat.succ_le_succ_iff] using this

/-- C6: dropping the rows lacking full lag history keeps exactly the rows at
positions ≥ 30 — one row per date with at least 30 strictly-prior days —
so the filtered feature table has `max (0, N − 30)` rows (ℕ-subtraction). -/
theorem feature_rows_after_drop (s : List (ℤ × ℚ)) :
    dropna (create_features s) = (create_features s).drop 30 ∧
    (dropna (create_features s)).length = s.length - 30 := by
  have hmain : dropna (create_features s) = (create_features s).drop 30 := by
    apply filter_eq_drop
    intro i h
    have hs : i < s.length := by
      simpa [create_features, List.length_mapIdx] using h
    have hget : (create_features s).get ⟨i, h⟩ =
        ((s.get ⟨i, hs⟩).1,
          { target := (s.get ⟨i, hs⟩).2
            lag1 := shiftAt s 1 i
            lag7 := shiftAt s 7 i
            lag30 := shiftAt s 30 i
            month := monthOf (s.get ⟨i, hs⟩).1
            dayofyear := dayOfYearOf (s.get ⟨i, hs⟩).1
            dayofweek := dayOfWeekOf (s.get ⟨i, hs⟩).1 }) := by
      simp only [create_features]
      rw [List.get_mapIdx]
    rw [hget]
    simp only [shiftAt, Bool.and_eq_true, Option.isSome_map]
    constructor
    · rintro ⟨⟨h1, _⟩, h30⟩
      split at h30
      · omega
      · simp at h30
    · intro h30
      have hlt : ∀ k : ℕ, k ≤ i → (s.get? (i - k)).isSome := by
        intro k hk
        rw [List.get?_eq_getElem?, List.getElem?_eq_getElem (by omega)]
        rfl
      refine ⟨⟨?_, ?_⟩, ?_⟩
      · rw [if_pos (by omega : 1 ≤ i)]; simpa using hlt 1 (by omega)
      · rw [if_pos (by omega : 7 ≤ i)]; simpa using hlt 7 (by omega)
      · rw [if_pos h30]; simpa using hlt 30 h30
  refine ⟨hmain, ?_⟩
  rw [hmain, List.length_drop]
  simp only [create_features, List.length_mapIdx]

/-! ## C1: the forecast appends exactly the horizon, gap-free -/

/-- The loop appends a tail whose dates are `last + i + 1, …, last + i + n`. -/
lemma forecastLoop_structure (m : Model) (last : ℤ) :
    ∀ (n : ℕ) (fs : List (ℤ × ℚ)) (i : ℕ),
      ∃ tail, forecastLoop m last fs i n = fs ++ tail ∧
        tail.map Prod.fst = (List.range n).map (fun (k : ℕ) => last + (i : ℤ) + 1 + (k : ℤ)) := by
  intro n
  induction n with
  | zero => intro fs i; exact ⟨[], by simp [forecastLoop], by simp⟩
  | succ n ih =>
    intro fs i
    obtain ⟨v, hv⟩ : ∃ v, stepOnce m fs (last + i + 1) = fs ++ [(last + i + 1, v)] :=
      ⟨_, rfl⟩
    obtain ⟨t, ht, hd⟩ := ih (stepOnce m fs (last + i + 1)) (i + 1)
    refine ⟨(last + (i : ℤ) + 1, v) :: t, ?_, ?_⟩
    · show forecastLoop m last (stepOnce m fs (last + i + 1)) (i + 1) n = _
      rw [ht, hv, List.append_assoc, List.singleton_append]
    · rw [List.map_cons, hd, List.range_succ_eq_map, List.map_cons, List.map_map]
      refine congrArg₂ _ (by push_cast; ring) ?_
      apply List.map_congr_left
      intro k _
      show last + ((i : ℤ) + 1) + 1 + (k : ℤ) = last + (i : ℤ) + 1 + ((k : ℕ) + 1 : ℕ)
      push_cast
      ring

/-- C1: with a nonempty input and a horizon end date strictly after the last
historical date, the output preserves the full input as its prefix (no
historical value overwritten) and appends exactly
`H = end_date − last_date` rows whose dates are the consecutive calendar
days `last_date + 1, …, last_date + H`, each row carrying the value the
model's prediction produced at that step. -/
theorem forecast_appends_horizon (s : List (ℤ × ℚ)) (m : Model) (e : ℤ)
    (p : ℤ × ℚ) (hp : s.getLast? = some p) (h : p.1 < e) :
    ∃ out, forecast_with_xgb s m e = some out ∧
      out.take s.length = s ∧
      out.length = s.length + (e - p.1).toNat ∧
      (out.drop s.length).map Prod.fst =
        (List.range (e - p.1).toNat).map (fun (k : ℕ) => p.1 + 1 + (k : ℤ)) := by
  obtain ⟨t, ht, hd⟩ := forecastLoop_structure m p.1 (e - p.1).toNat s 0
  have hlen : t.length = (e - p.1).toNat := by
    have := congrArg List.length hd
    simpa using this
  refine ⟨s ++ t, ?_, ?_, ?_, ?_⟩
  · have hc : ¬ (e - p.1 ≤ 0) := by omega
    simp only [forecast_with_xgb, hp, hc, if_false]
    exact congrArg some ht
  · exact List.take_left s t
  · simp [hlen]
  · rw [List.drop_left, hd]
    apply List.map_congr_left
    intro k _
    push_cast
    ring

theorem forecast_appends_horizon_witness :
    ∃ out, forecast_with_xgb sW (constModel 1) 3 = some out ∧
      out.take sW.length = sW ∧
      out.length = sW.length + ((3 : ℤ) - ((0 : ℤ), (5 : ℚ)).1).toNat ∧
      (out.drop sW.length).map Prod.fst =
        (List.range ((3 : ℤ) - ((0 : ℤ), (5 : ℚ)).1).toNat).map
          (fun (k : ℕ) => ((0 : ℤ), (5 : ℚ)).1 + 1 + (k : ℤ)) :=
  forecast_appends_horizon sW (constModel 1) 3 ((0 : ℤ), (5 : ℚ)) (by decide) (by decide)

/-! ## C10: the lag7/lag30 fallback branches are dead for histories ≥ 30 -/

lemma stepOnce_eq_NF (m : Model) (fs : List (ℤ × ℚ)) (d : ℤ)
    (h : 30 ≤ fs.length) : stepOnce m fs d = stepOnceNF m fs d := by
  have h7 : 7 ≤ fs.length := by omega
  simp [stepOnce, stepOnceNF, h, h7]

lemma forecastLoop_eq_NF (m : Model) (last : ℤ) :
    ∀ (n : ℕ) (fs : List (ℤ × ℚ)) (i : ℕ), 30 ≤ fs.length →
      forecastLoop m last fs i n = forecastLoopNF m last fs i n := by
  intro n
  induction n with
  | zero => intro fs i _; rfl
  | succ n ih =>
    intro fs i h
    show forecastLoop m last (stepOnce m fs (last + i + 1)) (i + 1) n = _
    rw [stepOnce_eq_NF m fs _ h]
    exact ih (stepOnceNF m fs (last + i + 1)) (i + 1)
      (by simp [stepOnceNF]; omega)

/-- C10: for every input series of length ≥ 30 the `len >= 7` / `len >= 30`
fallback-to-lag1 branches of the recursive loop are never taken: the
forecaster computes, for every model and horizon, the same output as the
fallback-free variant, whose lag7 and lag30 always read the values 7 and
30 positions back in the growing pseudo-history. -/
theorem lag_fallback_dead (s : List (ℤ × ℚ)) (m : Model) (e : ℤ)
    (h : 30 ≤ s.length) :
    forecast_with_xgb s m e = forecast_with_xgbNF s m e := by
  unfold forecast_with_xgb forecast_with_xgbNF
  cases hL : s.getLast? with
  | none => rfl
  | some p =>
    by_cases hc : e - p.1 ≤ 0
    · simp [hc]
    · simp only [hc, if_false]
      exact congrArg some (forecastLoop_eq_NF m p.1 (e - p.1).toNat s 0 h)

theorem lag_fallback_dead_witness :
    forecast_with_xgb s30 (constModel 2) 31 = forecast_with_xgbNF s30 (constModel 2) 31 :=
  lag_fallback_dead s30 (constModel 2) 31 (by decide)

/-! ## C4: HHI range over the seven buckets (corrected to a closed interval) -/

lemma blocksAt_nonneg (df : List DailyPoolRecord) (d : ℤ) (p : String) :
    0 ≤ blocksAt df d p := by
  simp only [blocksAt]
  split
  · exact le_refl 0
  · apply div_nonneg
    · apply List.sum_nonneg
      intro x hx
      obtain ⟨r, _, rfl⟩ := List.mem_map.mp hx
      exact_mod_cast Nat.zero_le _
    · exact_mod_cast Nat.zero_le _

lemma othersSum_nonneg (recs : List DailyPoolRecord) (d : ℤ) :
    0 ≤ othersSum recs d := by
  apply List.sum_nonneg
  intro x hx
  obtain ⟨pl, _, rfl⟩ := List.mem_map.mp hx
  exact blocksAt_nonneg _ _ _

/-- C4 counterexample: with one block for each of the seven buckets the HHI
value is exactly `1/7 = 1/K`, which is **not** strictly greater than
`1/K`; so the claimed half-open interval `(1/K, 1]` is wrong at the lower
end. -/
theorem hhi_lower_bound_attained :
    ((19358 : ℤ), (1 : ℚ) / 7) ∈ hhi_series recsEq ∧
    ¬ ((1 : ℚ) / ((major_pools.length : ℚ) + 1) < 1 / 7) := by
  constructor
  · have h7 : hhiAt recsEq 19358 = 1 / 7 := by
      simp [hhiAt, shares, totalBlocks, bucketCounts, blocksAt, othersSum,
        pools_df, pivotPools, major_pools, recsEq, start_date]
      norm_num
    have hd : pivotDates recsEq = [19358] := by decide
    simp [hhi_series, hd, h7]
  · norm_num [major_pools]

set_option maxHeartbeats 1000000 in
/-- Seven nonnegative reals summing to one have their squares summing into
`[1/7, 1]` (Cauchy–Schwarz lower end, subadditivity upper end). -/
lemma sq_sum_seven_bounds (s1 s2 s3 s4 s5 s6 s7 : ℚ)
    (h1 : 0 ≤ s1) (h2 : 0 ≤ s2) (h3 : 0 ≤ s3) (h4 : 0 ≤ s4)
    (h5 : 0 ≤ s5) (h6 : 0 ≤ s6) (h7 : 0 ≤ s7)
    (hs : s1 + s2 + s3 + s4 + s5 + s6 + s7 = 1) :
    1 / 7 ≤ s1 ^ 2 + s2 ^ 2 + s3 ^ 2 + s4 ^ 2 + s5 ^ 2 + s6 ^ 2 + s7 ^ 2 ∧
    s1 ^ 2 + s2 ^ 2 + s3 ^ 2 + s4 ^ 2 + s5 ^ 2 + s6 ^ 2 + s7 ^ 2 ≤ 1 := by
  constructor
  · nlinarith [sq_nonneg (s1 - s2), sq_nonneg (s1 - s3), sq_nonneg (s1 - s4),
      sq_nonneg (s1 - s5), sq_nonneg (s1 - s6), sq_nonneg (s1 - s7),
      sq_nonneg (s2 - s3), sq_nonneg (s2 - s4), sq_nonneg (s2 - s5),
      sq_nonneg (s2 - s6), sq_nonneg (s2 - s7), sq_nonneg (s3 - s4),
      sq_nonneg (s3 - s5), sq_nonneg (s3 - s6), sq_nonneg (s3 - s7),
      sq_nonneg (s4 - s5), sq_nonneg (s4 - s6), sq_nonneg (s4 - s7),
      sq_nonneg (s5 - s6), sq_nonneg (s5 - s7), sq_nonneg (s6 - s7)]
  · have q1 : s1 ^ 2 ≤ s1 := by
      rw [sq]; exact mul_le_of_le_one_right h1 (by linarith)
    have q2 : s2 ^ 2 ≤ s2 := by
      rw [sq]; exact mul_le_of_le_one_right h2 (by linarith)
    have q3 : s3 ^ 2 ≤ s3 := by
      rw [sq]; exact mul_le_of_le_one_right h3 (by linarith)
    have q4 : s4 ^ 2 ≤ s4 := by
      rw [sq]; exact mul_le_of_le_one_right h4 (by linarith)
    have q5 : s5 ^ 2 ≤ s5 := by
      rw [sq]; exact mul_le_of_le_one_right h5 (by linarith)
    have q6 : s6 ^ 2 ≤ s6 := by
      rw [sq]; exact mul_le_of_le_one_right h6 (by linarith)
    have q7 : s7 ^ 2 ≤ s7 := by
      rw [sq]; exact mul_le_of_le_one_right h7 (by linarith)
    linarith

/-- C4 amended: for every date with nonzero total blocks, the HHI (sum of
squared shares over the K = 7 buckets) lies in the closed interval
`[1/K, 1]`; the lower endpoint is attained exactly when all buckets are
equal, so the interval cannot be taken half-open. -/
theorem hhi_in_closed_interval (recs : List DailyPoolRecord) (d : ℤ)
    (h : totalBlocks recs d ≠ 0) :
    1 / ((major_pools.length : ℚ) + 1) ≤ hhiAt recs d ∧ hhiAt recs d ≤ 1 := by
  have hbc : bucketCounts recs d =
      [blocksAt (pools_df recs) d "Unknown", blocksAt (pools_df recs) d "AntPool",
       blocksAt (pools_df recs) d "ViaBTC", blocksAt (pools_df recs) d "F2Pool",
       blocksAt (pools_df recs) d "Mara Pool", blocksAt (pools_df recs) d "SBI Crypto",
       othersSum recs d] := by
    simp [bucketCounts, major_pools]
  set x1 := blocksAt (pools_df recs) d "Unknown" with hx1
  set x2 := blocksAt (pools_df recs) d "AntPool" with hx2
  set x3 := blocksAt (pools_df recs) d "ViaBTC" with hx3
  set x4 := blocksAt (pools_df recs) d "F2Pool" with hx4
  set x5 := blocksAt (pools_df recs) d "Mara Pool" with hx5
  set x6 := blocksAt (pools_df recs) d "SBI Crypto" with hx6
  set o := othersSum recs d with hox
  have h1 : 0 ≤ x1 := blocksAt_nonneg _ _ _
  have h2 : 0 ≤ x2 := blocksAt_nonneg _ _ _
  have h3 : 0 ≤ x3 := blocksAt_nonneg _ _ _
  have h4 : 0 ≤ x4 := blocksAt_nonneg _ _ _
  have h5 : 0 ≤ x5 := blocksAt_nonneg _ _ _
  have h6 : 0 ≤ x6 := blocksAt_nonneg _ _ _
  have ho : 0 ≤ o := othersSum_nonneg _ _
  have hT : totalBlocks recs d = x1 + x2 + x3 + x4 + x5 + x6 + o := by
    simp only [totalBlocks, hbc, List.sum_cons, List.sum_nil]
    ring
  have hTpos : 0 < totalBlocks recs d :=
    lt_of_le_of_ne (by rw [hT]; positivity) (Ne.symm h)
  set T := totalBlocks recs d with hTdef
  have hsh : shares recs d =
      some ([x1, x2, x3, x4, x5, x6, o].map (fun b => b / T)) := by
    simp only [shares, hbc]
    rw [if_neg h]
  have hhhi : hhiAt recs d =
      (x1 / T) ^ 2 + (x2 / T) ^ 2 + (x3 / T) ^ 2 + (x4 / T) ^ 2 +
        (x5 / T) ^ 2 + (x6 / T) ^ 2 + (o / T) ^ 2 := by
    simp only [hhiAt, hsh, List.map_cons, List.map_nil, List.sum_cons, List.sum_nil]
    ring
  have hss : x1 / T + x2 / T + x3 / T + x4 / T + x5 / T + x6 / T + o / T = 1 := by
    rw [div_add_div_same, div_add_div_same, div_add_div_same, div_add_div_same,
      div_add_div_same, div_add_div_same, ← hT]
    exact div_self h
  have hK : ((major_pools.length : ℚ) + 1) = 7 := by norm_num [major_pools]
  rw [hK, hhhi]
  exact sq_sum_seven_bounds _ _ _ _ _ _ _
    (div_nonneg h1 hTpos.le) (div_nonneg h2 hTpos.le) (div_nonneg h3 hTpos.le)
    (div_nonneg h4 hTpos.le) (div_nonneg h5 hTpos.le) (div_nonneg h6 hTpos.le)
    (div_nonneg ho hTpos.le) hss

theorem hhi_in_closed_interval_witness :
    1 / ((major_pools.length : ℚ) + 1) ≤ hhiAt recsW 19358 ∧ hhiAt recsW 19358 ≤ 1 :=
  hhi_in_closed_interval recsW 19358 (by
    have h4 : totalBlocks recsW 19358 = 4 := by
      simp [totalBlocks, bucketCounts, blocksAt, othersSum, pools_df, pivotPools,
        major_pools, recsW, start_date]
      norm_num
    rw [h4]
    norm_num)

/-! ## C8: both resampling modes produce a dense, gap-free daily series -/

lemma foldl_isSome_preserved {α β : Type} (g : Option β → α → Option β)
    (hpres : ∀ b a, (g (some b) a).isSome) :
    ∀ (l : List α) (acc : Option β), acc.isSome → (l.foldl g acc).isSome := by
  intro l
  induction l with
  | nil => intro acc h; simpa using h
  | cons x t ih =>
    intro acc h
    rw [List.foldl_cons]
    obtain ⟨b, rfl⟩ := Option.isSome_iff_exists.mp h
    exact ih (g (some b) x) (hpres b x)

lemma foldl_isSome_of_mem {α β : Type} (g : Option β → α → Option β)
    (hpres : ∀ b a, (g (some b) a).isSome)
    (e : α) (hg : ∀ acc, (g acc e).isSome) :
    ∀ (l : List α), e ∈ l → ∀ acc, (l.foldl g acc).isSome := by
  intro l
  induction l with
  | nil => intro h; cases h
  | cons x t ih =>
    intro hmem acc
    rw [List.foldl_cons]
    rcases List.mem_cons.mp hmem with rfl | hmem'
    · exact foldl_isSome_preserved g hpres t _ (hg acc)
    · exact ih hmem' _

lemma bestLe_isSome (l : List (ℤ × ℚ)) (d : ℤ) (e : ℤ × ℚ)
    (he : e ∈ l) (hle : e.1 ≤ d) : (bestLe l d).isSome := by
  apply foldl_isSome_of_mem _ ?_ e ?_ l he none
  · intro b a
    by_cases hc : a.1 ≤ d
    · simp only [hc, if_true]
      split <;> simp
    · simp [hc]
  · intro acc
    cases acc with
    | none => simp [hle]
    | some a =>
      simp only [hle, if_true]
      split <;> simp

lemma bestGt_isSome (l : List (ℤ × ℚ)) (d : ℤ) (e : ℤ × ℚ)
    (he : e ∈ l) (hgt : d < e.1) : (bestGt l d).isSome := by
  apply foldl_isSome_of_mem _ ?_ e ?_ l he none
  · intro b a
    by_cases hc : d < a.1
    · simp only [hc, if_true]
      split <;> simp
    · simp [hc]
  · intro acc
    cases acc with
    | none => simp [hgt]
    | some a =>
      simp only [hgt, if_true]
      split <;> simp

lemma loKey_go (lo : ℤ) :
    ∀ (l : List (ℤ × ℚ)) (a : ℤ),
      l.foldl (fun acc e => some (match acc with | none => e.1 | some a => min a e.1))
          (some a) = some lo →
      lo = a ∨ ∃ e ∈ l, e.1 = lo := by
  intro l
  induction l with
  | nil => intro a h; left; simpa using h.symm
  | cons x t ih =>
    intro a h
    rw [List.foldl_cons] at h
    rcases ih (min a x.1) h with hm | ⟨e, he, hek⟩
    · rcases min_cases a x.1 with ⟨hmin, _⟩ | ⟨hmin, _⟩
      · left; rw [hm, hmin]
      · right; exact ⟨x, List.mem_cons_self x t, by rw [← hmin, ← hm]⟩
    · right; exact ⟨e, List.mem_cons_of_mem x he, hek⟩

/-- The least key reported by `loKey` is the key of some entry. -/
lemma loKey_mem (l : List (ℤ × ℚ)) (lo : ℤ) (h : loKey l = some lo) :
    ∃ e ∈ l, e.1 = lo := by
  cases l with
  | nil => simp [loKey] at h
  | cons x t =>
    rw [loKey, List.foldl_cons] at h
    rcases loKey_go lo t x.1 h with hm | ⟨e, he, hek⟩
    · exact ⟨x, List.mem_cons_self x t, hm.symm⟩
    · exact ⟨e, List.mem_cons_of_mem x he, hek⟩

/-- Interpolation never changes the date column. -/
lemma interpTime_map_fst (g : List (ℤ × Option ℚ)) :
    (interpTime g).map Prod.fst = g.map Prod.fst := by
  simp only [interpTime, List.map_map]
  apply List.map_congr_left
  intro p _
  rcases p with ⟨t, v⟩
  cases v with
  | some w => rfl
  | none =>
    simp only [Function.comp]
    cases hb : bestLe (valids g) t with
    | none => rfl
    | some a =>
      cases hc : bestGt (valids g) t with
      | none => rfl
      | some b => rfl

/-- C8: the HHI resampler (`resample("D").mean().ffill()`) and the price
resampler (`asfreq("D").interpolate("time")`) both return a series with
exactly one slot per day — consecutive dates from the first to the last —
and every slot carries a defined (non-NaN) value. -/
theorem dense_daily_series (recs : List DailyPoolRecord) (lo hi : ℤ)
    (h1 : loKey (hhi_series recs) = some lo) (h2 : hiKey (hhi_series recs) = some hi)
    (pts : List (ℤ × ℚ)) (f l : ℤ × ℚ)
    (h3 : pts.head? = some f) (h4 : pts.getLast? = some l) :
    ((hhi_daily recs).map Prod.fst =
        (List.range ((hi - lo).toNat + 1)).map (fun (k : ℕ) => lo + (k : ℤ)) ∧
      ∀ q ∈ hhi_daily recs, q.2.isSome) ∧
    ((price_daily pts).map Prod.fst =
        (List.range (((l.1 - f.1) / dayMs).toNat + 1)).map
          (fun (k : ℕ) => f.1 + (k : ℤ) * dayMs) ∧
      ∀ q ∈ price_daily pts, q.2.isSome) := by
  have hdl : hhi_daily recs =
      (List.range ((hi - lo).toNat + 1)).map
        (fun (k : ℕ) => (lo + (k : ℤ),
          (bestLe (hhi_series recs) (lo + (k : ℤ))).map Prod.snd)) := by
    simp [hhi_daily, resample_ffill, h1, h2]
  have hple : pts = f :: pts.tail := by
    cases pts with
    | nil => simp at h3
    | cons a t => simpa using congrArg (fun o => Option.getD o a :: t) h3
  have hlook : lookupKey pts f.1 = some f.2 := by
    rw [hple, lookupKey, List.find?_cons_of_pos _ (by simp)]
    rfl
  have hg : asfreqD pts =
      (List.range (((l.1 - f.1) / dayMs).toNat + 1)).map
        (fun (k : ℕ) => (f.1 + (k : ℤ) * dayMs,
          lookupKey pts (f.1 + (k : ℤ) * dayMs))) := by
    simp [asfreqD, h3, h4]
  have hf0 : (f.1, f.2) ∈ valids (asfreqD pts) := by
    apply List.mem_filterMap.mpr
    refine ⟨(f.1, lookupKey pts f.1), ?_, ?_⟩
    · rw [hg]
      exact List.mem_map.mpr ⟨0, by simp, by simp⟩
    · simp [hlook]
  refine ⟨⟨?_, ?_⟩, ?_, ?_⟩
  · rw [hdl, List.map_map]
    rfl
  · intro q hq
    rw [hdl] at hq
    obtain ⟨k, _, rfl⟩ := List.mem_map.mp hq
    obtain ⟨e, he, hek⟩ := loKey_mem _ lo h1
    have hbs : (bestLe (hhi_series recs) (lo + (k : ℤ))).isSome :=
      bestLe_isSome _ _ e he (by rw [hek]; omega)
    obtain ⟨a, ha⟩ := Option.isSome_iff_exists.mp hbs
    simp [ha]
  · rw [price_daily, interpTime_map_fst, hg, List.map_map]
    rfl
  · intro q hq
    simp only [price_daily, interpTime] at hq
    obtain ⟨p, hp, rfl⟩ := List.mem_map.mp hq
    rcases p with ⟨t, v⟩
    have hft : f.1 ≤ t := by
      rw [hg] at hp
      obtain ⟨k, _, hpe⟩ := List.mem_map.mp hp
      have : f.1 + (k : ℤ) * dayMs = t := congrArg Prod.fst hpe
      have hday : (0 : ℤ) ≤ (k : ℤ) * dayMs :=
        mul_nonneg (Int.natCast_nonneg k) (by norm_num [dayMs])
      omega
    cases v with
    | some w => simp
    | none =>
      simp only
      have hble := bestLe_isSome (valids (asfreqD pts)) t (f.1, f.2) hf0 hft
      obtain ⟨a, ha⟩ := Option.isSome_iff_exists.mp hble
      rw [ha]
      cases hc : bestGt (valids (asfreqD pts)) t with
      | none => simp
      | some b => simp

/-- A two-point price series one day apart. -/
def ptsW : List (ℤ × ℚ) := [((0 : ℤ), (1 : ℚ)), ((86400000 : ℤ), (2 : ℚ))]

theorem dense_daily_series_witness :
    ((hhi_daily recsW).map Prod.fst =
        (List.range (((19358 : ℤ) - 19358).toNat + 1)).map
          (fun (k : ℕ) => (19358 : ℤ) + (k : ℤ)) ∧
      ∀ q ∈ hhi_daily recsW, q.2.isSome) ∧
    ((price_daily ptsW).map Prod.fst =
        (List.range (((((86400000 : ℤ), (2 : ℚ)).1 - ((0 : ℤ), (1 : ℚ)).1) / dayMs).toNat
            + 1)).map
          (fun (k : ℕ) => ((0 : ℤ), (1 : ℚ)).1 + (k : ℤ) * dayMs) ∧
      ∀ q ∈ price_daily ptsW, q.2.isSome) :=
  dense_daily_series recsW 19358 19358 (by decide) (by decide)
    ptsW ((0 : ℤ), (1 : ℚ)) ((86400000 : ℤ), (2 : ℚ)) (by decide) (by decide)

/-! ## C9: price interpolation vs. the nearest-known-values description -/

/-- An input whose middle point (day 0.5) does not fall on the daily grid
anchored at the first timestamp. -/
def ptsC9 : List (ℤ × ℚ) :=
  [((0 : ℤ), (0 : ℚ)), ((43200000 : ℤ), (100 : ℚ)), ((259200000 : ℤ), (100 : ℚ))]

/-- C9 counterexample: day 86400000 (day 1) is missing and lies strictly
between the known points (43200000, 100) and (259200000, 100) — the
nearest known values on either side, whose time-weighted interpolation is
100 (`specInterp`).  The code instead drops the off-grid point 43200000
during `asfreq("D")` and outputs 100/3 ≠ 100 for day 1. -/
theorem price_interp_offgrid_cex :
    lookupKey ptsC9 86400000 = none ∧
    specInterp ptsC9 86400000 = some 100 ∧
    price_daily ptsC9 =
      [((0 : ℤ), some (0 : ℚ)), ((86400000 : ℤ), some ((100 : ℚ) / 3)),
       ((172800000 : ℤ), some ((200 : ℚ) / 3)), ((259200000 : ℤ), some (100 : ℚ))] ∧
    ((100 : ℚ) / 3 ≠ 100) := by
  refine ⟨by decide, ?_, ?_, by norm_num⟩
  · simp [specInterp, bestLt, bestGt, ptsC9]
  · simp [price_daily, asfreqD, ptsC9, dayMs, interpTime, valids, lookupKey,
      bestLe, bestGt, List.range_succ]
    norm_num

lemma getLast?_mem_self {α : Type} {l : List α} {a : α} (h : l.getLast? = some a) :
    a ∈ l := by
  obtain ⟨hne, rfl⟩ := List.mem_getLast?_eq_getLast (Option.mem_def.mpr h)
  exact List.getLast_mem hne

lemma pairwise_head_le (pts : List (ℤ × ℚ)) (f : ℤ × ℚ) (h3 : pts.head? = some f)
    (hs : pts.Pairwise (fun a b => a.1 < b.1)) : ∀ p ∈ pts, f.1 ≤ p.1 := by
  cases pts with
  | nil => simp at h3
  | cons a t =>
    obtain rfl : a = f := by simpa using h3
    obtain ⟨ha, _⟩ := List.pairwise_cons.mp hs
    intro p hp
    rcases List.mem_cons.mp hp with rfl | hp'
    · exact le_refl _
    · exact (ha p hp').le

lemma pairwise_le_last : ∀ (pts : List (ℤ × ℚ)) (l : ℤ × ℚ),
    pts.getLast? = some l → pts.Pairwise (fun a b => a.1 < b.1) →
    ∀ p ∈ pts, p.1 ≤ l.1 := by
  intro pts
  induction pts with
  | nil => intro l h4 _ p hp; cases hp
  | cons a t ih =>
    intro l h4 hs p hp
    cases t with
    | nil =>
      obtain rfl : a = l := by simpa using h4
      obtain rfl : p = a := by simpa using hp
      exact le_refl _
    | cons b u =>
      rw [List.getLast?_cons_cons] at h4
      obtain ⟨ha, ht⟩ := List.pairwise_cons.mp hs
      rcases List.mem_cons.mp hp with rfl | hp'
      · exact (ha l (getLast?_mem_self h4)).le
      · exact ih l h4 ht p hp'

lemma key_unique : ∀ (pts : List (ℤ × ℚ)),
    pts.Pairwise (fun a b => a.1 < b.1) →
    ∀ p q : ℤ × ℚ, p ∈ pts → q ∈ pts → p.1 = q.1 → p = q := by
  intro pts
  induction pts with
  | nil => intro _ p q hp; cases hp
  | cons a t ih =>
    intro hs p q hp hq hk
    obtain ⟨ha, ht⟩ := List.pairwise_cons.mp hs
    rcases List.mem_cons.mp hp with rfl | hp' <;> rcases List.mem_cons.mp hq with rfl | hq'
    · rfl
    · exact absurd hk (ne_of_lt (ha q hq'))
    · exact absurd hk.symm (ne_of_lt (ha p hp'))
    · exact ih ht p q hp' hq' hk

/-- In a strictly key-sorted list, looking a member's key up returns that
member's value. -/
lemma lookupKey_eq_of_mem : ∀ (pts : List (ℤ × ℚ)),
    pts.Pairwise (fun a b => a.1 < b.1) →
    ∀ p : ℤ × ℚ, p ∈ pts → lookupKey pts p.1 = some p.2 := by
  intro pts
  induction pts with
  | nil => intro _ p hp; cases hp
  | cons a t ih =>
    intro hs p hp
    obtain ⟨ha, ht⟩ := List.pairwise_cons.mp hs
    by_cases hc : a.1 = p.1
    · have hap : a = p := by
        rcases List.mem_cons.mp hp with rfl | hp'
        · rfl
        · exact absurd hc (ne_of_lt (ha p hp'))
      rw [lookupKey, List.find?_cons_of_pos _ (by simp [hc]), hap]
      rfl
    · have hp' : p ∈ t := by
        rcases List.mem_cons.mp hp with rfl | hp'
        · exact absurd rfl hc
        · exact hp'
      rw [lookupKey, List.find?_cons_of_neg _ (by simp [hc])]
      exact ih ht p hp'

/-- With no entry keyed exactly `d`, "greatest key ≤ d" and
"greatest key < d" agree. -/
lemma bestLe_eq_bestLt (d : ℤ) : ∀ (l : List (ℤ × ℚ)),
    (∀ e ∈ l, e.1 ≠ d) → bestLe l d = bestLt l d := by
  have main : ∀ (l : List (ℤ × ℚ)), (∀ e ∈ l, e.1 ≠ d) →
      ∀ acc : Option (ℤ × ℚ),
      (l.foldl (fun acc e =>
        if e.1 ≤ d then
          match acc with
          | none => some e
          | some a => if a.1 < e.1 then some e else acc
        else acc) acc) =
      (l.foldl (fun acc e =>
        if e.1 < d then
          match acc with
          | none => some e
          | some a => if a.1 < e.1 then some e else acc
        else acc) acc) := by
    intro l
    induction l with
    | nil => intro _ acc; rfl
    | cons x t ih =>
      intro h acc
      rw [List.foldl_cons, List.foldl_cons]
      have hiff : x.1 ≤ d ↔ x.1 < d :=
        ⟨fun hle => lt_of_le_of_ne hle (h x (List.mem_cons_self x t)),
         fun hlt => hlt.le⟩
      rw [if_congr hiff rfl rfl]
      exact ih (fun e he => h e (List.mem_cons_of_mem x he)) _
  intro l h
  exact main l h none

lemma bestLt_isSome (l : List (ℤ × ℚ)) (d : ℤ) (e : ℤ × ℚ)
    (he : e ∈ l) (hlt : e.1 < d) : (bestLt l d).isSome := by
  apply foldl_isSome_of_mem _ ?_ e ?_ l he none
  · intro b a
    by_cases hc : a.1 < d
    · simp only [hc, if_true]
      split <;> simp
    · simp [hc]
  · intro acc
    cases acc with
    | none => simp [hlt]
    | some a =>
      simp only [hlt, if_true]
      split <;> simp

/-- Two strictly key-sorted lists with the same members are equal. -/
lemma sorted_key_eq : ∀ (l1 l2 : List (ℤ × ℚ)),
    l1.Pairwise (fun a b => a.1 < b.1) → l2.Pairwise (fun a b => a.1 < b.1) →
    (∀ x, x ∈ l1 ↔ x ∈ l2) → l1 = l2 := by
  intro l1
  induction l1 with
  | nil =>
    intro l2 _ _ hm
    cases l2 with
    | nil => rfl
    | cons b u => exact absurd ((hm b).mpr (List.mem_cons_self b u)) (by simp)
  | cons a t ih =>
    intro l2 h1 h2 hm
    cases l2 with
    | nil => exact absurd ((hm a).mp (List.mem_cons_self a t)) (by simp)
    | cons b u =>
      obtain ⟨ha, ht⟩ := List.pairwise_cons.mp h1
      obtain ⟨hb, hu⟩ := List.pairwise_cons.mp h2
      have hab : a = b := by
        rcases List.mem_cons.mp ((hm a).mp (List.mem_cons_self a t)) with h | hau
        · exact h
        · rcases List.mem_cons.mp ((hm b).mpr (List.mem_cons_self b u)) with h | hbt
          · exact h.symm
          · exact absurd (lt_trans (hb a hau) (ha b hbt)) (lt_irrefl _)
      subst hab
      have htu : ∀ x, x ∈ t ↔ x ∈ u := by
        intro x
        constructor
        · intro hx
          rcases List.mem_cons.mp ((hm x).mp (List.mem_cons_of_mem a hx)) with rfl | h
          · exact absurd (ha x hx) (lt_irrefl _)
          · exact h
        · intro hx
          rcases List.mem_cons.mp ((hm x).mpr (List.mem_cons_of_mem a hx)) with rfl | h
          · exact absurd (hb x hx) (lt_irrefl _)
          · exact h
      rw [ih u ht hu htu]

lemma pairwise_valids : ∀ (g : List (ℤ × Option ℚ)),
    g.Pairwise (fun a b => a.1 < b.1) →
    (valids g).Pairwise (fun a b => a.1 < b.1) := by
  intro g
  induction g with
  | nil => intro _; simp [valids]
  | cons a t ih =>
    intro hp
    obtain ⟨ha, ht⟩ := List.pairwise_cons.mp hp
    rcases a with ⟨k, v⟩
    cases v with
    | none =>
      simpa [valids, List.filterMap_cons] using ih ht
    | some w =>
      simp only [valids, List.filterMap_cons, Option.map_some']
      refine List.pairwise_cons.mpr ⟨?_, ih ht⟩
      intro y hy
      obtain ⟨p, hpt, hfn⟩ := List.mem_filterMap.mp hy
      obtain ⟨u, _, hyu⟩ := Option.map_eq_some'.mp hfn
      have : y.1 = p.1 := by rw [← hyu]
      rw [this]
      exact ha p hpt

/-- The value `interpolate("time")` stores in a slot, as a function of its
stored option and the list of valid slots. -/
def interpVal (vs : List (ℤ × ℚ)) (t : ℤ) (v : Option ℚ) : Option ℚ :=
  match v with
  | some w => some w
  | none =>
    match bestLe vs t, bestGt vs t with
    | none, _ => none
    | some a, none => some a.2
    | some a, some b => some (a.2 + (b.2 - a.2) * (t - a.1) / (b.1 - a.1))

lemma interpTime_eq_map (g : List (ℤ × Option ℚ)) :
    interpTime g = g.map (fun p => (p.1, interpVal (valids g) p.1 p.2)) := by
  simp only [interpTime]
  apply List.map_congr_left
  intro p _
  rcases p with ⟨t, v⟩
  cases v with
  | some w => rfl
  | none =>
    simp only [interpVal]
    cases hb : bestLe (valids g) t with
    | none => rfl
    | some a =>
      cases hc : bestGt (valids g) t with
      | none => rfl
      | some b => rfl

/-- Under strict sorting and day-grid alignment, the valid slots of the
reindexed series are exactly the input points. -/
lemma valids_asfreqD (pts : List (ℤ × ℚ)) (f l : ℤ × ℚ)
    (h3 : pts.head? = some f) (h4 : pts.getLast? = some l)
    (hs : pts.Pairwise (fun a b => a.1 < b.1))
    (halign : ∀ p ∈ pts, dayMs ∣ (p.1 - f.1)) :
    valids (asfreqD pts) = pts := by
  have hday : dayMs = 86400000 := rfl
  have hg : asfreqD pts =
      (List.range (((l.1 - f.1) / dayMs).toNat + 1)).map
        (fun (k : ℕ) => (f.1 + (k : ℤ) * dayMs,
          lookupKey pts (f.1 + (k : ℤ) * dayMs))) := by
    simp [asfreqD, h3, h4]
  have hgp : (asfreqD pts).Pairwise (fun a b => a.1 < b.1) := by
    rw [hg, List.pairwise_map]
    refine (List.pairwise_lt_range _).imp ?_
    intro k k' hkk
    have hkz : (k : ℤ) < (k' : ℤ) := by exact_mod_cast hkk
    have := mul_lt_mul_of_pos_right hkz (show (0 : ℤ) < dayMs by norm_num [hday])
    simpa using this
  apply sorted_key_eq _ _ (pairwise_valids _ hgp) hs
  intro x
  constructor
  · intro hx
    obtain ⟨p, hp, hfn⟩ := List.mem_filterMap.mp hx
    obtain ⟨v, hv2, hxe⟩ := Option.map_eq_some'.mp hfn
    rw [hg] at hp
    obtain ⟨k, _, hpe⟩ := List.mem_map.mp hp
    have hp2 : lookupKey pts p.1 = p.2 := by
      rw [← hpe]
    rw [hv2] at hp2
    obtain ⟨q, hfind, hq2⟩ := Option.map_eq_some'.mp hp2
    have hqmem : q ∈ pts := List.mem_of_find?_eq_some hfind
    have hqk : q.1 = p.1 := by simpa using List.find?_some hfind
    have : x = q := by
      rw [← hxe, ← hqk, ← hq2]
    rw [this]
    exact hqmem
  · intro hx
    have hxf : f.1 ≤ x.1 := pairwise_head_le pts f h3 hs x hx
    have hxl : x.1 ≤ l.1 := pairwise_le_last pts l h4 hs x hx
    have hfl : f.1 ≤ l.1 := pairwise_head_le pts f h3 hs l (getLast?_mem_self h4)
    obtain ⟨m, hm⟩ := halign x hx
    obtain ⟨M, hM⟩ := halign l (getLast?_mem_self h4)
    have hm0 : 0 ≤ m := by rw [hday] at hm; omega
    have hM0 : 0 ≤ M := by rw [hday] at hM; omega
    have hmM : m ≤ M := by rw [hday] at hm hM; omega
    have hdivM : (l.1 - f.1) / dayMs = M := by
      rw [hM]
      exact Int.mul_ediv_cancel_left _ (by norm_num [hday])
    have hkey : f.1 + ((m.toNat : ℤ)) * dayMs = x.1 := by
      rw [Int.toNat_of_nonneg hm0]
      rw [hday] at hm ⊢
      omega
    refine List.mem_filterMap.mpr ⟨(x.1, lookupKey pts x.1), ?_, ?_⟩
    · rw [hg]
      refine List.mem_map.mpr ⟨m.toNat, ?_, ?_⟩
      · rw [List.mem_range, hdivM]
        omega
      · rw [hkey]
    · rw [lookupKey_eq_of_mem pts hs x hx]
      rfl

/-- C9 amended: the resampler first snaps the input onto the daily grid
anchored at the first timestamp, dropping off-grid points.  For inputs
whose timestamps all lie on that grid (strictly increasing), every
missing day is filled by time-weighted linear interpolation between the
nearest known input values on either side, and the output contains no day
before the first or after the last known point. -/
theorem price_interp_aligned (pts : List (ℤ × ℚ)) (f l : ℤ × ℚ)
    (h3 : pts.head? = some f) (h4 : pts.getLast? = some l)
    (hs : pts.Pairwise (fun a b => a.1 < b.1))
    (halign : ∀ p ∈ pts, dayMs ∣ (p.1 - f.1)) :
    (∀ q ∈ price_daily pts, f.1 ≤ q.1 ∧ q.1 ≤ l.1) ∧
    (∀ q ∈ price_daily pts, lookupKey pts q.1 = none → q.2 = specInterp pts q.1) := by
  have hday : dayMs = 86400000 := rfl
  have hg : asfreqD pts =
      (List.range (((l.1 - f.1) / dayMs).toNat + 1)).map
        (fun (k : ℕ) => (f.1 + (k : ℤ) * dayMs,
          lookupKey pts (f.1 + (k : ℤ) * dayMs))) := by
    simp [asfreqD, h3, h4]
  have hv : valids (asfreqD pts) = pts := valids_asfreqD pts f l h3 h4 hs halign
  have hfl : f.1 ≤ l.1 := pairwise_head_le pts f h3 hs l (getLast?_mem_self h4)
  obtain ⟨M, hM⟩ := halign l (getLast?_mem_self h4)
  have hM0 : 0 ≤ M := by rw [hday] at hM; omega
  have hdivM : (l.1 - f.1) / dayMs = M := by
    rw [hM]
    exact Int.mul_ediv_cancel_left _ (by norm_num [hday])
  have hbound : ∀ q ∈ price_daily pts, f.1 ≤ q.1 ∧ q.1 ≤ l.1 := by
    intro q hq
    rw [price_daily, interpTime_eq_map] at hq
    obtain ⟨p, hp, rfl⟩ := List.mem_map.mp hq
    rw [hg] at hp
    obtain ⟨k, hk, hpe⟩ := List.mem_map.mp hp
    have hp1 : p.1 = f.1 + (k : ℤ) * dayMs := by rw [← hpe]
    have hkM : (k : ℤ) ≤ M := by
      rw [List.mem_range, hdivM] at hk
      omega
    rw [hday] at hp1 hM
    constructor
    · have : (0 : ℤ) ≤ (k : ℤ) * 86400000 := by positivity
      simp only [hp1]
      omega
    · simp only [hp1]
      omega
  refine ⟨hbound, ?_⟩
  intro q hq hnone
  have hqb := hbound q hq
  rw [price_daily, interpTime_eq_map] at hq
  obtain ⟨p, hp, rfl⟩ := List.mem_map.mp hq
  rw [hg] at hp
  obtain ⟨k, hk, hpe⟩ := List.mem_map.mp hp
  have hp2 : p.2 = lookupKey pts p.1 := by rw [← hpe]
  have hpnone : p.2 = none := by
    rw [hp2]
    exact hnone
  have hne : ∀ e ∈ pts, e.1 ≠ p.1 := by
    intro e he heq
    have hle := lookupKey_eq_of_mem pts hs e he
    rw [heq] at hle
    rw [hle] at hnone
    cases hnone
  have hflt : f.1 < p.1 :=
    lt_of_le_of_ne hqb.1 (hne f (List.mem_of_mem_head? (by rw [h3]; rfl)))
  have hltl : p.1 < l.1 :=
    lt_of_le_of_ne hqb.2 (fun h => hne l (getLast?_mem_self h4) h.symm)
  obtain ⟨a, ha⟩ := Option.isSome_iff_exists.mp (bestLt_isSome pts p.1 f
    (List.mem_of_mem_head? (by rw [h3]; rfl)) hflt)
  obtain ⟨b, hb⟩ := Option.isSome_iff_exists.mp (bestGt_isSome pts p.1 l
    (getLast?_mem_self h4) hltl)
  show interpVal (valids (asfreqD pts)) p.1 p.2 = specInterp pts p.1
  rw [hpnone, hv]
  simp only [interpVal, specInterp, bestLe_eq_bestLt p.1 pts hne, ha, hb]

theorem price_interp_aligned_witness :
    (∀ q ∈ price_daily ptsW,
        ((0 : ℤ), (1 : ℚ)).1 ≤ q.1 ∧ q.1 ≤ ((86400000 : ℤ), (2 : ℚ)).1) ∧
    (∀ q ∈ price_daily ptsW, lookupKey ptsW q.1 = none → q.2 = specInterp ptsW q.1) :=
  price_interp_aligned ptsW ((0 : ℤ), (1 : ℚ)) ((86400000 : ℤ), (2 : ℚ))
    (by decide) (by decide) (by decide) (by decide)

end BTCForecast
